import Mathlib

/-!
Shallow embedding of the transformer translation core of
solidity_translator (src/transformer/model.py), with theorems checking
the repository specification's claims about tokenization, vocabulary
lookup, masking, batching, label smoothing and the Noam learning-rate
schedule.

Strings are modelled as lists of characters; Python dictionaries are
modelled as functions into Option; the float arithmetic of the
learning-rate schedule is modelled over the reals, and the label
smoothing arithmetic over the rationals.
-/

namespace SolidityTranslator

/-! ### Tokenizers (tokenize_description, tokenize_solidity_code) -/

/-- Python str.replace for a single-character pattern: every occurrence
of the character old is replaced by the string new. -/
def replaceChar (old : Char) (new : List Char) (s : List Char) : List Char :=
  s.flatMap (fun c => if c = old then new else [c])

/-- Python str.lower, characterwise. -/
def lowerL (s : List Char) : List Char := s.map Char.toLower

/-- Python str.split for the single-space separator: consecutive
separators produce empty fields, and the empty string yields one empty
field. -/
def splitSp : List Char → List (List Char)
  | [] => [[]]
  | c :: cs =>
    match splitSp cs with
    | [] => [[]]
    | t :: ts => if c = ' ' then [] :: t :: ts else (c :: t) :: ts

/-- Python str.strip for the space character: drop leading and trailing
spaces. -/
def stripSp (s : List Char) : List Char :=
  ((s.dropWhile (fun c => c = ' ')).reverse.dropWhile (fun c => c = ' ')).reverse

/-- The replacement chain of tokenize_description: space before a colon,
space after an opening square bracket, space before a closing square
bracket, space before a comma, spaces around a period, applied in the
order of the source. -/
def descReplace (s : List Char) : List Char :=
  replaceChar '.' [' ', '.', ' ']
    (replaceChar ',' [' ', ',']
      (replaceChar ']' [' ', ']']
        (replaceChar '[' ['[', ' ']
          (replaceChar ':' [' ', ':'] s))))

/-- tokenize_description: insert spaces near the description punctuation,
lower-case, split on single spaces and strip each piece.  Empty pieces
are kept. -/
def tokenize_description (s : List Char) : List (List Char) :=
  (splitSp (lowerL (descReplace s))).map stripSp

/-- The replacement chain of tokenize_solidity_code: spaces around each
of the seven code punctuation characters, applied in the order of the
source. -/
def codeReplace (s : List Char) : List Char :=
  replaceChar ',' [' ', ',', ' ']
    (replaceChar ';' [' ', ';', ' ']
      (replaceChar '.' [' ', '.', ' ']
        (replaceChar ')' [' ', ')', ' ']
          (replaceChar '(' [' ', '(', ' ']
            (replaceChar '}' [' ', '}', ' ']
              (replaceChar '{' [' ', '{', ' '] s))))))

/-- tokenize_solidity_code: insert spaces around the code punctuation,
lower-case, split on single spaces, strip each piece and remove all
empty pieces. -/
def tokenize_solidity_code (s : List Char) : List (List Char) :=
  ((splitSp (lowerL (codeReplace s))).map stripSp).filter (fun t => t ≠ [])

/-- Joining a token list with single spaces (the re-joining operation of
the idempotence property). -/
def joinSp : List (List Char) → List Char
  | [] => []
  | [t] => t
  | t :: u :: ts => t ++ ' ' :: joinSp (u :: ts)

/-! ### Vocab -/

/-- Assignment into a Python dictionary with string keys. -/
def dictInsertS (d : String → Option ℕ) (k : String) (v : ℕ) : String → Option ℕ :=
  fun q => if q = k then some v else d q

/-- Assignment into a Python dictionary with integer keys. -/
def dictInsertN (d : ℕ → Option String) (k : ℕ) (v : String) : ℕ → Option String :=
  fun q => if q = k then some v else d q

/-- The construction loop of Vocab.__init__: walk the word list with a
counter, recording word2index and index2word entries. -/
def buildMaps : List String → ℕ → (String → Option ℕ) → (ℕ → Option String) →
    (String → Option ℕ) × (ℕ → Option String)
  | [], _, w2i, i2w => (w2i, i2w)
  | w :: ws, cnt, w2i, i2w =>
      buildMaps ws (cnt + 1) (dictInsertS w2i w cnt) (dictInsertN i2w cnt w)

structure Vocab where
  vocab : List String
  word2index : String → Option ℕ
  index2word : ℕ → Option String

/-- Vocab.__init__ applied to a word list. -/
def Vocab.ofList (vs : List String) : Vocab :=
  let m := buildMaps vs 0 (fun _ => none) (fun _ => none)
  { vocab := vs, word2index := m.1, index2word := m.2 }

/-- Vocab.index_of_word: a bare dictionary lookup; none models the
KeyError Python raises when the word is absent. -/
def Vocab.index_of_word (v : Vocab) (w : String) : Option ℕ := v.word2index w

/-- Vocab.word_at_index: a bare dictionary lookup; none models the
KeyError Python raises when the index is absent. -/
def Vocab.word_at_index (v : Vocab) (i : ℕ) : Option String := v.index2word i

/-! ### Masking (subsequent_mask) -/

/-- numpy triu: keep the entries on and above the k-th diagonal (those
with j - i at least k) and zero the rest. -/
def triu (m : List (List ℕ)) (k : ℤ) : List (List ℕ) :=
  (List.range m.length).map (fun (i : ℕ) =>
    (List.range ((m.getD i []).length)).map (fun (j : ℕ) =>
      if k ≤ (j : ℤ) - (i : ℤ) then (m.getD i []).getD j 0 else 0))

/-- numpy ones for a square shape (the leading singleton batch axis of
the source is dropped). -/
def onesSq (n : ℕ) : List (List ℕ) :=
  List.replicate n (List.replicate n 1)

/-- subsequent_mask: triu of a square matrix of ones with k = 1,
compared against zero entrywise. -/
def subsequent_mask (n : ℕ) : List (List Bool) :=
  (triu (onesSq n) 1).map (fun row => row.map (fun x => decide (x = 0)))

/-! ### Batch -/

/-- make_std_mask: the padding mask of the decoder input, broadcast
against the causal mask of the row length and combined with logical
and.  Entry (b, i, j) is causal(i, j) and (row b at j is not pad). -/
def make_std_mask (tgt : List (List ℕ)) (pad : ℕ) : List (List (List Bool)) :=
  tgt.map (fun row =>
    (subsequent_mask ((tgt.headD []).length)).map (fun crow =>
      List.zipWith (fun cij tj => cij && decide (tj ≠ pad)) crow row))

structure Batch where
  src : List (List ℕ)
  src_mask : List (List Bool)
  trg : List (List ℕ)
  trg_y : List (List ℕ)
  trg_mask : List (List (List Bool))
  ntokens : ℕ

/-- Batch.__init__ with a target: source kept with its padding mask,
target split into the decoder input (last column dropped) and the loss
target (first column dropped), the standard target mask, and the count
of non-pad loss-target entries. -/
def Batch.ofTensors (src trg : List (List ℕ)) (pad : ℕ) : Batch :=
  let trgIn := trg.map (fun r => r.dropLast)
  { src := src
    src_mask := src.map (fun r => r.map (fun t => decide (t ≠ pad)))
    trg := trgIn
    trg_y := trg.map (fun r => r.drop 1)
    trg_mask := make_std_mask trgIn pad
    ntokens := ((trg.map (fun r => r.drop 1)).map
      (fun r => (r.filter (fun t => decide (t ≠ pad))).length)).sum }

/-! ### LabelSmoothing -/

/-- One row of the true distribution built by LabelSmoothing.forward:
fill with smoothing / (size - 2), scatter the confidence at the label
column, zero the pad column, and zero the whole row when the label is
the pad index. -/
def lsRow (size p : ℕ) (smoothing : ℚ) (label : ℕ) : List ℚ :=
  let confidence : ℚ := 1 - smoothing
  let filled := List.replicate size (smoothing / ((size : ℚ) - 2))
  let scattered := filled.set label confidence
  let padZeroed := scattered.set p 0
  if label = p then padZeroed.map (fun _ => (0 : ℚ)) else padZeroed

/-- The full true distribution of LabelSmoothing.forward: one smoothed
row per target label. -/
def lsTrueDist (size p : ℕ) (smoothing : ℚ) (target : List ℕ) : List (List ℚ) :=
  target.map (lsRow size p smoothing)

/-! ### NoamOpt -/

/-- The Noam learning-rate expression of NoamOpt.rate over the reals:
factor times model_size to the -1/2 times the minimum of step to the
-1/2 and step times warmup to the -3/2. -/
noncomputable def noamRateR (factor model_size warmup t : ℝ) : ℝ :=
  factor * (model_size ^ ((-1 : ℝ)/2) * min (t ^ ((-1 : ℝ)/2)) (t * warmup ^ ((-3 : ℝ)/2)))

/-- Python float power: raising zero to a negative exponent raises
ZeroDivisionError, modelled as none; otherwise the real power. -/
noncomputable def pyPow (x y : ℝ) : Option ℝ :=
  if x = 0 ∧ y < 0 then none else some (x ^ y)

/-- NoamOpt.rate evaluated at an explicit step with Python's evaluation
order: the model_size power first, then the step power (the failing one
at step zero), then the warmup power. -/
noncomputable def noamRateAt (factor model_size warmup : ℝ) (step : ℕ) : Option ℝ :=
  (pyPow model_size ((-1 : ℝ)/2)).bind (fun a =>
    (pyPow (step : ℝ) ((-1 : ℝ)/2)).bind (fun b =>
      (pyPow warmup ((-3 : ℝ)/2)).map (fun c =>
        factor * (a * min b ((step : ℝ) * c)))))

/-- The wrapped optimizer: the learning rate of each parameter group,
and the list of parameter-group learning rates in effect at each call
of optimizer.step (most recent last). -/
structure OptimizerState where
  param_groups : List ℝ
  applied : List (List ℝ)

/-- optimizer.step: record the learning rates currently assigned to the
parameter groups. -/
def OptimizerState.step (o : OptimizerState) : OptimizerState :=
  { o with applied := o.applied ++ [o.param_groups] }

structure NoamOpt where
  model_size : ℝ
  factor : ℝ
  warmup : ℝ
  _step : ℕ
  _rate : ℝ
  optimizer : OptimizerState

/-- NoamOpt.__init__: step counter and rate start at zero. -/
def NoamOpt.init (model_size factor warmup : ℝ) (groups : List ℝ) : NoamOpt :=
  { model_size := model_size, factor := factor, warmup := warmup,
    _step := 0, _rate := 0,
    optimizer := { param_groups := groups, applied := [] } }

/-- NoamOpt.step: increment the step counter, compute the rate from the
incremented counter, assign it to every parameter group, record the
rate, and only then apply the wrapped optimizer step. -/
noncomputable def NoamOpt.step (n : NoamOpt) : NoamOpt :=
  let s := n._step + 1
  let r := noamRateR n.factor n.model_size n.warmup (s : ℝ)
  { n with
    _step := s
    _rate := r
    optimizer := OptimizerState.step
      { n.optimizer with param_groups := n.optimizer.param_groups.map (fun _ => r) } }

/-- n successive calls of NoamOpt.step. -/
noncomputable def NoamOpt.stepN (n : NoamOpt) : ℕ → NoamOpt
  | 0 => n
  | k + 1 => (n.stepN k).step

/-! ### Helper lemmas: Vocab construction -/

lemma buildMaps_w2i_of_notMem (vs : List String) (c : ℕ) (w2i : String → Option ℕ)
    (i2w : ℕ → Option String) (q : String) (hq : q ∉ vs) :
    (buildMaps vs c w2i i2w).1 q = w2i q := by
  induction vs generalizing c w2i i2w with
  | nil => rfl
  | cons w ws ih =>
      simp only [List.mem_cons, not_or] at hq
      simp only [buildMaps]
      rw [ih _ _ _ hq.2]
      simp [dictInsertS, hq.1]

lemma buildMaps_w2i_get (vs : List String) (c : ℕ) (w2i : String → Option ℕ)
    (i2w : ℕ → Option String) (hnd : vs.Nodup) (i : ℕ) (hi : i < vs.length) :
    (buildMaps vs c w2i i2w).1 (vs.get ⟨i, hi⟩) = some (c + i) := by
  induction vs generalizing c w2i i2w i with
  | nil => simp at hi
  | cons w ws ih =>
      rcases List.nodup_cons.mp hnd with ⟨hw, hnd2⟩
      cases i with
      | zero =>
          simp only [List.get, buildMaps]
          rw [buildMaps_w2i_of_notMem ws _ _ _ w hw]
          simp [dictInsertS]
      | succ i2 =>
          simp only [List.get, buildMaps]
          have hi2 : i2 < ws.length := by simpa using hi
          rw [ih _ _ _ hnd2 i2 hi2]
          simp [Nat.add_comm, Nat.add_assoc, Nat.add_left_comm]

lemma buildMaps_i2w_of_lt (vs : List String) (c : ℕ) (w2i : String → Option ℕ)
    (i2w : ℕ → Option String) (n : ℕ) (hn : n < c) :
    (buildMaps vs c w2i i2w).2 n = i2w n := by
  induction vs generalizing c w2i i2w with
  | nil => rfl
  | cons w ws ih =>
      simp only [buildMaps]
      rw [ih _ _ _ (by omega)]
      simp [dictInsertN, Nat.ne_of_lt hn]

lemma buildMaps_i2w_get (vs : List String) (c : ℕ) (w2i : String → Option ℕ)
    (i2w : ℕ → Option String) (i : ℕ) (hi : i < vs.length) :
    (buildMaps vs c w2i i2w).2 (c + i) = some (vs.get ⟨i, hi⟩) := by
  induction vs generalizing c w2i i2w i with
  | nil => simp at hi
  | cons w ws ih =>
      cases i with
      | zero =>
          simp only [List.get, buildMaps, Nat.add_zero]
          rw [buildMaps_i2w_of_lt ws (c + 1) (dictInsertS w2i w c) (dictInsertN i2w c w) c
            (by omega)]
          simp [dictInsertN]
      | succ i2 =>
          simp only [List.get, buildMaps]
          have hi2 : i2 < ws.length := by simpa using hi
          have harith : c + (i2 + 1) = (c + 1) + i2 := by omega
          rw [harith, ih _ _ _ i2 hi2]

/-! ### Helper lemmas: subsequent_mask -/

lemma getD_map_range {α : Type} (f : ℕ → α) (n i : ℕ) (hi : i < n) (d : α) :
    ((List.range n).map f).getD i d = f i := by
  simp [List.getD_eq_getElem?_getD, List.getElem?_map, List.getElem?_range hi]

lemma triu_onesSq (n : ℕ) : triu (onesSq n) 1 =
    (List.range n).map (fun (i : ℕ) => (List.range n).map (fun (j : ℕ) =>
      if (1 : ℤ) ≤ (j : ℤ) - (i : ℤ) then 1 else 0)) := by
  have hlen : (onesSq n).length = n := by simp [onesSq]
  simp only [triu, hlen]
  apply List.map_congr_left
  intro i hi
  have hi2 : i < n := List.mem_range.mp hi
  have hones : (onesSq n).getD i [] = List.replicate n 1 := by
    simp [onesSq, List.getD_eq_getElem?_getD, List.getElem?_replicate, hi2]
  rw [hones, List.length_replicate]
  apply List.map_congr_left
  intro j hj
  have hj2 : j < n := List.mem_range.mp hj
  have : (List.replicate n (1 : ℕ)).getD j 0 = 1 := by
    simp [List.getD_eq_getElem?_getD, List.getElem?_replicate, hj2]
  rw [this]

lemma subsequent_mask_eq (n : ℕ) : subsequent_mask n =
    (List.range n).map (fun (i : ℕ) => (List.range n).map (fun (j : ℕ) =>
      decide ((if (1 : ℤ) ≤ (j : ℤ) - (i : ℤ) then (1 : ℕ) else 0) = 0))) := by
  rw [subsequent_mask, triu_onesSq, List.map_map]
  apply List.map_congr_left
  intro i _
  simp [List.map_map, Function.comp]

lemma subsequent_mask_getD (n i j : ℕ) (hi : i < n) (hj : j < n) :
    ((subsequent_mask n).getD i []).getD j false = decide (j ≤ i) := by
  rw [subsequent_mask_eq, getD_map_range _ n i hi, getD_map_range _ n j hj]
  by_cases hij : j ≤ i
  · have h1 : ¬ ((1 : ℤ) ≤ (j : ℤ) - (i : ℤ)) := by omega
    simp [h1, hij]
  · have h1 : (1 : ℤ) ≤ (j : ℤ) - (i : ℤ) := by omega
    simp [h1, hij]

lemma subsequent_mask_length (n : ℕ) : (subsequent_mask n).length = n := by
  rw [subsequent_mask_eq]; simp

lemma subsequent_mask_row_length (n i : ℕ) (hi : i < n) :
    ((subsequent_mask n).getD i []).length = n := by
  rw [subsequent_mask_eq, getD_map_range _ n i hi]; simp

end SolidityTranslator

namespace SolidityTranslator

/-! ### Claim theorems: C1, C2, C3 -/

/-- C1: the specification requires index_of_word on a token absent from
the vocabulary to return the id of the reserved unknown token and never
raise; the reference code performs a bare dictionary lookup, so on the
unseen token the lookup fails (KeyError, modelled as none) even though
the unknown token is present in the vocabulary with a valid id. -/
theorem C1_index_of_word_unseen_fails :
    Vocab.index_of_word (Vocab.ofList ["unk_tkn", "pad_tkn", "a"]) "zzz" = none ∧
    Vocab.index_of_word (Vocab.ofList ["unk_tkn", "pad_tkn", "a"]) "unk_tkn" = some 0 := by
  decide

/-- C2: for every length n, subsequent_mask n is an n-by-n boolean
matrix whose entry (i, j) is true exactly when j is at most i, so it is
lower-triangular with the diagonal included. -/
theorem C2_subsequent_mask_causal (n i j : ℕ) (hi : i < n) (hj : j < n) :
    (subsequent_mask n).length = n ∧
    ((subsequent_mask n).getD i []).length = n ∧
    (((subsequent_mask n).getD i []).getD j false = true ↔ j ≤ i) :=
  ⟨subsequent_mask_length n, subsequent_mask_row_length n i hi,
    by rw [subsequent_mask_getD n i j hi hj]; simp⟩

/-- Witness for C2 at n = 3, i = 1, j = 2. -/
theorem C2_subsequent_mask_causal_witness :
    (subsequent_mask 3).length = 3 ∧
    ((subsequent_mask 3).getD 1 []).length = 3 ∧
    (((subsequent_mask 3).getD 1 []).getD 2 false = true ↔ 2 ≤ 1) :=
  C2_subsequent_mask_causal 3 1 2 (by norm_num) (by norm_num)

/-- C3: for a vocabulary built from a duplicate-free token list, looking
up the id of a token of the list and mapping that id back returns the
same token, and mapping an in-range id to its token and looking the
token up returns the same id: the token-to-id mapping is a bijection. -/
theorem C3_vocab_bijection (vs : List String) (hnd : vs.Nodup) :
    (∀ t ∈ vs, ((Vocab.ofList vs).index_of_word t).bind
        (Vocab.ofList vs).word_at_index = some t) ∧
    (∀ i, i < vs.length → ((Vocab.ofList vs).word_at_index i).bind
        (Vocab.ofList vs).index_of_word = some i) := by
  constructor
  · intro t ht
    obtain ⟨⟨i, hi⟩, hget⟩ := List.mem_iff_get.mp ht
    have h1 : (Vocab.ofList vs).index_of_word t = some i := by
      have := buildMaps_w2i_get vs 0 (fun _ => none) (fun _ => none) hnd i hi
      rw [hget] at this
      simpa [Vocab.ofList, Vocab.index_of_word] using this
    have h2 : (Vocab.ofList vs).word_at_index i = some t := by
      have := buildMaps_i2w_get vs 0 (fun _ => none) (fun _ => none) i hi
      rw [hget] at this
      simpa [Vocab.ofList, Vocab.word_at_index] using this
    rw [h1, Option.some_bind, h2]
  · intro i hi
    have h2 : (Vocab.ofList vs).word_at_index i = some (vs.get ⟨i, hi⟩) := by
      have := buildMaps_i2w_get vs 0 (fun _ => none) (fun _ => none) i hi
      simpa [Vocab.ofList, Vocab.word_at_index] using this
    have h1 : (Vocab.ofList vs).index_of_word (vs.get ⟨i, hi⟩) = some i := by
      have := buildMaps_w2i_get vs 0 (fun _ => none) (fun _ => none) hnd i hi
      simpa [Vocab.ofList, Vocab.index_of_word] using this
    rw [h2, Option.some_bind, h1]

/-- Witness for C3 on the vocabulary built from the two tokens a, b. -/
theorem C3_vocab_bijection_witness :
    (((Vocab.ofList ["a", "b"]).index_of_word "b").bind
        (Vocab.ofList ["a", "b"]).word_at_index = some "b") ∧
    (((Vocab.ofList ["a", "b"]).word_at_index 0).bind
        (Vocab.ofList ["a", "b"]).index_of_word = some 0) :=
  ⟨(C3_vocab_bijection ["a", "b"] (by decide)).1 "b" (by decide),
    (C3_vocab_bijection ["a", "b"] (by decide)).2 0 (by decide)⟩

/-! ### Claim theorem: C9 (Batch) -/

lemma getD_map_of_lt {α β : Type} (g : α → β) (l : List α) (b : ℕ) (hb : b < l.length)
    (d : α) (d2 : β) : (l.map g).getD b d2 = g (l.getD b d) := by
  rw [List.getD_eq_getElem?_getD, List.getElem?_map, List.getElem?_eq_getElem hb,
    List.getD_eq_getElem l d hb]
  rfl

lemma getD_zipWith_of_lt {α β γ : Type} (f : α → β → γ) (l1 : List α) (l2 : List β)
    (j : ℕ) (h1 : j < l1.length) (h2 : j < l2.length) (d1 : α) (d2 : β) (d3 : γ) :
    (List.zipWith f l1 l2).getD j d3 = f (l1.getD j d1) (l2.getD j d2) := by
  rw [List.getD_eq_getElem?_getD, List.getElem?_zipWith, List.getElem?_eq_getElem h1,
    List.getElem?_eq_getElem h2, List.getD_eq_getElem l1 d1 h1, List.getD_eq_getElem l2 d2 h2]
  rfl

lemma getD_dropLast_of_lt {α : Type} (l : List α) (j : ℕ) (hj : j < l.length - 1) (d : α) :
    l.dropLast.getD j d = l.getD j d := by
  rw [List.getD_eq_getElem?_getD, List.getElem?_dropLast, if_pos hj,
    ← List.getD_eq_getElem?_getD]

/-- C9: a Batch built from a padded rectangular target tensor stores, per
row, the decoder input (all but the last token) and the loss target (all
but the first token); its target-mask entry (b, i, j) is the conjunction
of the decoder-input padding bit at column j and the causal bit (j at
most i); and ntokens counts the non-pad entries of the loss target. -/
theorem C9_batch_teacher_forcing (src trg : List (List ℕ)) (pad Lt b i j : ℕ)
    (hrect : ∀ r ∈ trg, r.length = Lt)
    (hb : b < trg.length) (hi : i < Lt - 1) (hj : j < Lt - 1) :
    (Batch.ofTensors src trg pad).trg.getD b [] = (trg.getD b []).dropLast ∧
    (Batch.ofTensors src trg pad).trg_y.getD b [] = (trg.getD b []).drop 1 ∧
    (((Batch.ofTensors src trg pad).trg_mask.getD b []).getD i []).getD j false =
      (decide ((trg.getD b []).getD j 0 ≠ pad) && decide (j ≤ i)) ∧
    (Batch.ofTensors src trg pad).ntokens =
      ((Batch.ofTensors src trg pad).trg_y.map
        (fun r => (r.filter (fun t => decide (t ≠ pad))).length)).sum := by
  have hrowlen : (trg.getD b []).length = Lt := by
    apply hrect
    rw [List.getD_eq_getElem trg [] hb]
    exact List.getElem_mem hb
  refine ⟨?_, ?_, ?_, ?_⟩
  · exact getD_map_of_lt _ trg b hb [] []
  · exact getD_map_of_lt _ trg b hb [] []
  · have hL : ((trg.map (fun r => r.dropLast)).headD []).length = Lt - 1 := by
      cases trg with
      | nil => simp at hb
      | cons r rest =>
          have : r.length = Lt := hrect r (by simp)
          simp [this]
    have hmaskrow : (Batch.ofTensors src trg pad).trg_mask.getD b [] =
        (subsequent_mask (Lt - 1)).map (fun crow =>
          List.zipWith (fun cij tj => cij && decide (tj ≠ pad)) crow
            ((trg.getD b []).dropLast)) := by
      show (make_std_mask (trg.map (fun r => r.dropLast)) pad).getD b [] = _
      rw [make_std_mask, hL,
        getD_map_of_lt _ (trg.map (fun r => r.dropLast)) b (by simpa using hb) [] [],
        getD_map_of_lt _ trg b hb [] []]
    rw [hmaskrow,
      getD_map_of_lt _ (subsequent_mask (Lt - 1)) i
        (by rw [subsequent_mask_length]; exact hi) [] [],
      getD_zipWith_of_lt _ _ _ j
        (by rw [subsequent_mask_row_length (Lt - 1) i hi]; exact hj)
        (by rw [List.length_dropLast, hrowlen]; exact hj) false 0 false,
      subsequent_mask_getD (Lt - 1) i j hi hj,
      getD_dropLast_of_lt (trg.getD b []) j (by rw [hrowlen]; exact hj) 0]
    exact Bool.and_comm _ _
  · rfl

/-- Witness for C9 on a one-row batch with pad id 0, target row
[1, 2, 0], at mask position (1, 0). -/
theorem C9_batch_teacher_forcing_witness :
    (Batch.ofTensors [[1, 0]] [[1, 2, 0]] 0).trg.getD 0 [] =
      (([[1, 2, 0]] : List (List ℕ)).getD 0 []).dropLast ∧
    (Batch.ofTensors [[1, 0]] [[1, 2, 0]] 0).trg_y.getD 0 [] =
      (([[1, 2, 0]] : List (List ℕ)).getD 0 []).drop 1 ∧
    (((Batch.ofTensors [[1, 0]] [[1, 2, 0]] 0).trg_mask.getD 0 []).getD 1 []).getD 0 false =
      (decide ((([[1, 2, 0]] : List (List ℕ)).getD 0 []).getD 0 0 ≠ 0) && decide (0 ≤ 1)) ∧
    (Batch.ofTensors [[1, 0]] [[1, 2, 0]] 0).ntokens =
      ((Batch.ofTensors [[1, 0]] [[1, 2, 0]] 0).trg_y.map
        (fun r => (r.filter (fun t => decide (t ≠ 0))).length)).sum :=
  C9_batch_teacher_forcing [[1, 0]] [[1, 2, 0]] 0 3 0 1 0 (by decide) (by decide)
    (by decide) (by decide)

/-! ### Claim theorem: C6 (LabelSmoothing) -/

lemma sum_set_of_lt (l : List ℚ) (i : ℕ) (v : ℚ) (h : i < l.length) :
    (l.set i v).sum = l.sum - l.getD i 0 + v := by
  induction l generalizing i with
  | nil => simp at h
  | cons a tl ih =>
      cases i with
      | zero => simp only [List.set, List.sum_cons, List.getD_cons_zero]; ring
      | succ i2 =>
          simp only [List.set_cons_succ, List.sum_cons, List.getD_cons_succ]
          rw [ih i2 (by simpa using h)]
          ring

lemma getD_set_self (l : List ℚ) (i : ℕ) (v : ℚ) (h : i < l.length) :
    (l.set i v).getD i 0 = v := by
  rw [List.getD_eq_getElem?_getD, List.getElem?_set, if_pos rfl, if_pos h]
  rfl

lemma getD_set_ne (l : List ℚ) (i j : ℕ) (v : ℚ) (hij : i ≠ j) :
    (l.set i v).getD j 0 = l.getD j 0 := by
  rw [List.getD_eq_getElem?_getD, List.getElem?_set, if_neg hij,
    ← List.getD_eq_getElem?_getD]

lemma getD_replicate_of_lt (n j : ℕ) (v : ℚ) (hj : j < n) :
    (List.replicate n v).getD j 0 = v := by
  rw [List.getD_eq_getElem?_getD, List.getElem?_replicate, if_pos hj]
  rfl

/-- C6: in the true distribution built by LabelSmoothing.forward, the
pad column of every row is exactly zero; a row whose label is the pad
index is entirely zero; and a row whose label is not the pad index sums
to the confidence plus the total smoothing mass (which is the smoothing
value, hence the sum is one), with the smoothing mass spread evenly
as smoothing / (size - 2) over every column other than the label and
the pad columns. -/
theorem C6_label_smoothing_rows (size p : ℕ) (smoothing : ℚ) (target : List ℕ) (b : ℕ)
    (hs : 3 ≤ size) (hp : p < size) (hb : b < target.length)
    (hl : target.getD b 0 < size) :
    ((lsTrueDist size p smoothing target).getD b []).getD p 0 = 0 ∧
    (target.getD b 0 = p →
      (lsTrueDist size p smoothing target).getD b [] = List.replicate size 0) ∧
    (target.getD b 0 ≠ p →
      ((lsTrueDist size p smoothing target).getD b []).sum =
        (1 - smoothing) + ((size : ℚ) - 2) * (smoothing / ((size : ℚ) - 2)) ∧
      ∀ j, j < size → j ≠ target.getD b 0 → j ≠ p →
        ((lsTrueDist size p smoothing target).getD b []).getD j 0 =
          smoothing / ((size : ℚ) - 2)) := by
  have hrow : (lsTrueDist size p smoothing target).getD b [] =
      lsRow size p smoothing (target.getD b 0) :=
    getD_map_of_lt _ target b hb 0 []
  rw [hrow]
  set label := target.getD b 0 with hlabel
  set m : ℚ := smoothing / ((size : ℚ) - 2) with hm
  have hlenf : (List.replicate size m).length = size := List.length_replicate ..
  have hlens : ((List.replicate size m).set label (1 - smoothing)).length = size := by
    rw [List.length_set, hlenf]
  have hlenp : (((List.replicate size m).set label (1 - smoothing)).set p 0).length = size := by
    rw [List.length_set, hlens]
  by_cases hcase : label = p
  · have hzero : lsRow size p smoothing label =
        List.replicate size 0 := by
      rw [lsRow, if_pos hcase]
      rw [List.map_const', hlenp]
    refine ⟨?_, fun _ => hzero, fun hne => absurd hcase hne⟩
    rw [hzero, getD_replicate_of_lt size p 0 hp]
  · have hrow2 : lsRow size p smoothing label =
        ((List.replicate size m).set label (1 - smoothing)).set p 0 := by
      rw [lsRow, if_neg hcase]
    refine ⟨?_, fun h => absurd h hcase, fun _ => ⟨?_, ?_⟩⟩
    · rw [hrow2, getD_set_self _ p 0 (by rw [hlens]; exact hp)]
    · rw [hrow2, sum_set_of_lt _ p 0 (by rw [hlens]; exact hp),
        sum_set_of_lt _ label (1 - smoothing) (by rw [hlenf]; exact hl),
        getD_set_ne _ label p (1 - smoothing) hcase,
        getD_replicate_of_lt size label m hl,
        getD_replicate_of_lt size p m hp,
        List.sum_replicate, nsmul_eq_mul]
      have h2 : ((size : ℚ) - 2) ≠ 0 := by
        have : (3 : ℚ) ≤ (size : ℚ) := by exact_mod_cast hs
        intro h0
        rw [sub_eq_zero] at h0
        rw [h0] at this
        norm_num at this
      rw [hm]
      field_simp
      ring
    · intro j hjs hjl hjp
      rw [hrow2, getD_set_ne _ p j 0 (fun h => hjp h.symm),
        getD_set_ne _ label j (1 - smoothing) (fun h => hjl h.symm),
        getD_replicate_of_lt size j m hjs]

/-- Witness for C6 with size 4, pad id 0, smoothing 1/5, on the target
batch [2, 0] at row 0. -/
theorem C6_label_smoothing_rows_witness :
    ((lsTrueDist 4 0 (1/5) [2, 0]).getD 0 []).getD 0 0 = 0 ∧
    (([2, 0] : List ℕ).getD 0 0 = 0 →
      (lsTrueDist 4 0 (1/5) [2, 0]).getD 0 [] = List.replicate 4 0) ∧
    (([2, 0] : List ℕ).getD 0 0 ≠ 0 →
      ((lsTrueDist 4 0 (1/5) [2, 0]).getD 0 []).sum =
        (1 - 1/5) + ((4 : ℚ) - 2) * ((1/5) / ((4 : ℚ) - 2)) ∧
      ∀ j, j < 4 → j ≠ ([2, 0] : List ℕ).getD 0 0 → j ≠ 0 →
        ((lsTrueDist 4 0 (1/5) [2, 0]).getD 0 []).getD j 0 = (1/5) / ((4 : ℚ) - 2)) :=
  C6_label_smoothing_rows 4 0 (1/5) [2, 0] 0 (by norm_num) (by norm_num) (by norm_num)
    (by norm_num)

/-! ### Claim theorems: C7, C8, C10 (NoamOpt) -/

lemma rpow_three_halves_eq (t : ℝ) (ht : 0 < t) :
    t ^ ((3 : ℝ)/2) = t * t ^ ((1 : ℝ)/2) := by
  have h32 : (3 : ℝ)/2 = 1 + 1/2 := by norm_num
  rw [h32, Real.rpow_add ht, Real.rpow_one]

lemma noam_branch_le (t w : ℝ) (ht : 0 < t) (hw : 0 < w) (htw : t ≤ w) :
    t * w ^ ((-3 : ℝ)/2) ≤ t ^ ((-1 : ℝ)/2) := by
  have hw32 : (0 : ℝ) < w ^ ((3 : ℝ)/2) := Real.rpow_pos_of_pos hw _
  have ht12 : (0 : ℝ) < t ^ ((1 : ℝ)/2) := Real.rpow_pos_of_pos ht _
  have e1 : t * w ^ ((-3 : ℝ)/2) = t / w ^ ((3 : ℝ)/2) := by
    rw [show ((-3 : ℝ)/2) = -((3 : ℝ)/2) by norm_num, Real.rpow_neg hw.le]
    ring
  have e2 : t ^ ((-1 : ℝ)/2) = 1 / t ^ ((1 : ℝ)/2) := by
    rw [show ((-1 : ℝ)/2) = -((1 : ℝ)/2) by norm_num, Real.rpow_neg ht.le]
    ring
  rw [e1, e2, div_le_div_iff₀ hw32 ht12, one_mul, ← rpow_three_halves_eq t ht]
  exact Real.rpow_le_rpow ht.le htw (by norm_num)

lemma noam_branch_ge (t w : ℝ) (hw : 0 < w) (hwt : w ≤ t) :
    t ^ ((-1 : ℝ)/2) ≤ t * w ^ ((-3 : ℝ)/2) := by
  have ht : (0 : ℝ) < t := lt_of_lt_of_le hw hwt
  have hw32 : (0 : ℝ) < w ^ ((3 : ℝ)/2) := Real.rpow_pos_of_pos hw _
  have ht12 : (0 : ℝ) < t ^ ((1 : ℝ)/2) := Real.rpow_pos_of_pos ht _
  have e1 : t * w ^ ((-3 : ℝ)/2) = t / w ^ ((3 : ℝ)/2) := by
    rw [show ((-3 : ℝ)/2) = -((3 : ℝ)/2) by norm_num, Real.rpow_neg hw.le]
    ring
  have e2 : t ^ ((-1 : ℝ)/2) = 1 / t ^ ((1 : ℝ)/2) := by
    rw [show ((-1 : ℝ)/2) = -((1 : ℝ)/2) by norm_num, Real.rpow_neg ht.le]
    ring
  rw [e1, e2, div_le_div_iff₀ ht12 hw32, one_mul, ← rpow_three_halves_eq t ht]
  exact Real.rpow_le_rpow hw.le hwt (by norm_num)

/-- C7: the Noam learning-rate expression, with positive factor, model
size and warmup, is strictly increasing on steps between 1 and the
warmup and strictly decreasing on steps past the warmup. -/
theorem C7_noam_rate_monotone (factor d w t1 t2 : ℝ)
    (hf : 0 < factor) (hd : 0 < d) (hw : 0 < w) :
    (1 ≤ t1 → t1 < t2 → t2 ≤ w → noamRateR factor d w t1 < noamRateR factor d w t2) ∧
    (w < t1 → t1 < t2 → noamRateR factor d w t2 < noamRateR factor d w t1) := by
  have hdpos : (0 : ℝ) < d ^ ((-1 : ℝ)/2) := Real.rpow_pos_of_pos hd _
  constructor
  · intro h1 h12 h2w
    have ht1 : (0 : ℝ) < t1 := lt_of_lt_of_le one_pos h1
    have ht2 : (0 : ℝ) < t2 := lt_trans ht1 h12
    have hm1 : min (t1 ^ ((-1 : ℝ)/2)) (t1 * w ^ ((-3 : ℝ)/2)) = t1 * w ^ ((-3 : ℝ)/2) :=
      min_eq_right (noam_branch_le t1 w ht1 hw (le_trans h12.le h2w))
    have hm2 : min (t2 ^ ((-1 : ℝ)/2)) (t2 * w ^ ((-3 : ℝ)/2)) = t2 * w ^ ((-3 : ℝ)/2) :=
      min_eq_right (noam_branch_le t2 w ht2 hw h2w)
    rw [noamRateR, noamRateR, hm1, hm2]
    have hwpos : (0 : ℝ) < w ^ ((-3 : ℝ)/2) := Real.rpow_pos_of_pos hw _
    exact mul_lt_mul_of_pos_left
      (mul_lt_mul_of_pos_left (mul_lt_mul_of_pos_right h12 hwpos) hdpos) hf
  · intro hw1 h12
    have ht1 : (0 : ℝ) < t1 := lt_trans hw hw1
    have hm1 : min (t1 ^ ((-1 : ℝ)/2)) (t1 * w ^ ((-3 : ℝ)/2)) = t1 ^ ((-1 : ℝ)/2) :=
      min_eq_left (noam_branch_ge t1 w hw hw1.le)
    have hm2 : min (t2 ^ ((-1 : ℝ)/2)) (t2 * w ^ ((-3 : ℝ)/2)) = t2 ^ ((-1 : ℝ)/2) :=
      min_eq_left (noam_branch_ge t2 w hw (le_trans hw1.le h12.le))
    rw [noamRateR, noamRateR, hm1, hm2]
    have hlt : t2 ^ ((-1 : ℝ)/2) < t1 ^ ((-1 : ℝ)/2) :=
      Real.rpow_lt_rpow_of_neg ht1 h12 (by norm_num)
    exact mul_lt_mul_of_pos_left (mul_lt_mul_of_pos_left hlt hdpos) hf

/-- Witness for C7 with factor 1, model size 1, warmup 4, at the step
pairs (1, 2) in the warmup phase and (5, 6) past it. -/
theorem C7_noam_rate_monotone_witness :
    noamRateR 1 1 4 1 < noamRateR 1 1 4 2 ∧ noamRateR 1 1 4 6 < noamRateR 1 1 4 5 :=
  ⟨(C7_noam_rate_monotone 1 1 4 1 2 (by norm_num) (by norm_num) (by norm_num)).1
      (by norm_num) (by norm_num) (by norm_num),
    (C7_noam_rate_monotone 1 1 4 5 6 (by norm_num) (by norm_num) (by norm_num)).2
      (by norm_num) (by norm_num)⟩

lemma stepN_step_count (ms f w : ℝ) (groups : List ℝ) (n : ℕ) :
    ((NoamOpt.init ms f w groups).stepN n)._step = n := by
  induction n with
  | zero => rfl
  | succ k ih => simp only [NoamOpt.stepN, NoamOpt.step, ih]

lemma stepN_params (ms f w : ℝ) (groups : List ℝ) (n : ℕ) :
    ((NoamOpt.init ms f w groups).stepN n).factor = f ∧
    ((NoamOpt.init ms f w groups).stepN n).model_size = ms ∧
    ((NoamOpt.init ms f w groups).stepN n).warmup = w := by
  induction n with
  | zero => exact ⟨rfl, rfl, rfl⟩
  | succ k ih => simpa only [NoamOpt.stepN, NoamOpt.step] using ih

lemma stepN_param_groups_length (ms f w : ℝ) (groups : List ℝ) (n : ℕ) :
    ((NoamOpt.init ms f w groups).stepN n).optimizer.param_groups.length = groups.length := by
  induction n with
  | zero => rfl
  | succ k ih =>
      simp only [NoamOpt.stepN, NoamOpt.step, OptimizerState.step, List.length_map]
      exact ih

lemma stepN_applied_eq (ms f w : ℝ) (groups : List ℝ) (n : ℕ) :
    ((NoamOpt.init ms f w groups).stepN n).optimizer.applied =
      (List.range n).map (fun (k : ℕ) =>
        List.replicate groups.length (noamRateR f ms w ((k : ℝ) + 1))) := by
  induction n with
  | zero => rfl
  | succ k ih =>
      obtain ⟨hfac, hms, hwu⟩ := stepN_params ms f w groups k
      simp only [NoamOpt.stepN, NoamOpt.step, OptimizerState.step, ih, hfac, hms, hwu,
        stepN_step_count, List.map_const', stepN_param_groups_length]
      rw [List.range_succ, List.map_append]
      simp [Nat.cast_add]

/-- C8: after n calls of NoamOpt.step on a freshly constructed wrapper,
the step counter is n, the stored rate and every parameter-group
learning rate equal the schedule at the incremented counter value n,
and the k-th wrapped optimizer step (k from 0) saw the learning rate of
schedule value k + 1: the counter is incremented first and the rate of
the incremented counter is assigned before the wrapped step runs. -/
theorem C8_noam_step_uses_incremented_count (ms f w : ℝ) (groups : List ℝ) (n : ℕ)
    (hn : 1 ≤ n) :
    ((NoamOpt.init ms f w groups).stepN n)._step = n ∧
    ((NoamOpt.init ms f w groups).stepN n)._rate = noamRateR f ms w (n : ℝ) ∧
    ((NoamOpt.init ms f w groups).stepN n).optimizer.param_groups =
      List.replicate groups.length (noamRateR f ms w (n : ℝ)) ∧
    ((NoamOpt.init ms f w groups).stepN n).optimizer.applied =
      (List.range n).map (fun (k : ℕ) =>
        List.replicate groups.length (noamRateR f ms w ((k : ℝ) + 1))) := by
  refine ⟨stepN_step_count ms f w groups n, ?_, ?_, stepN_applied_eq ms f w groups n⟩
  · obtain ⟨k, rfl⟩ : ∃ k, n = k + 1 := ⟨n - 1, by omega⟩
    obtain ⟨hfac, hms, hwu⟩ := stepN_params ms f w groups k
    simp only [NoamOpt.stepN, NoamOpt.step, hfac, hms, hwu, stepN_step_count]
  · obtain ⟨k, rfl⟩ : ∃ k, n = k + 1 := ⟨n - 1, by omega⟩
    obtain ⟨hfac, hms, hwu⟩ := stepN_params ms f w groups k
    simp only [NoamOpt.stepN, NoamOpt.step, OptimizerState.step, hfac, hms, hwu,
      stepN_step_count, List.map_const', stepN_param_groups_length]

/-- Witness for C8 with unit parameters, two parameter groups and two
steps. -/
theorem C8_noam_step_uses_incremented_count_witness :
    ((NoamOpt.init 1 1 4 [0, 0]).stepN 2)._step = 2 ∧
    ((NoamOpt.init 1 1 4 [0, 0]).stepN 2)._rate = noamRateR 1 1 4 (2 : ℝ) ∧
    ((NoamOpt.init 1 1 4 [0, 0]).stepN 2).optimizer.param_groups =
      List.replicate ([0, 0] : List ℝ).length (noamRateR 1 1 4 (2 : ℝ)) ∧
    ((NoamOpt.init 1 1 4 [0, 0]).stepN 2).optimizer.applied =
      (List.range 2).map (fun (k : ℕ) =>
        List.replicate ([0, 0] : List ℝ).length (noamRateR 1 1 4 ((k : ℝ) + 1))) :=
  C8_noam_step_uses_incremented_count 1 1 4 [0, 0] 2 (by norm_num)

/-- C10: on a freshly constructed NoamOpt the step counter is zero, and
evaluating the rate there computes zero to the power -0.5, which fails
(ZeroDivisionError, modelled as none); for every step at least 1 the
rate is defined and equals the real-valued schedule, so the schedule is
total exactly under the precondition step at least 1. -/
theorem C10_rate_partial_at_zero (factor d w : ℝ) (hd : 0 < d) (hw : 0 < w) :
    (NoamOpt.init d factor w [])._step = 0 ∧
    noamRateAt factor d w ((NoamOpt.init d factor w [])._step) = none ∧
    ∀ k : ℕ, 1 ≤ k → noamRateAt factor d w k = some (noamRateR factor d w (k : ℝ)) := by
  refine ⟨rfl, ?_, ?_⟩
  · show noamRateAt factor d w 0 = none
    rw [noamRateAt, pyPow, if_neg (by simp [hd.ne'])]
    rw [Option.some_bind, pyPow, if_pos (by norm_num)]
    rfl
  · intro k hk
    have hk0 : ((k : ℕ) : ℝ) ≠ 0 := Nat.cast_ne_zero.mpr (by omega)
    rw [noamRateAt, pyPow, if_neg (by simp [hd.ne']), Option.some_bind,
      pyPow, if_neg (by simp [hk0]), Option.some_bind,
      pyPow, if_neg (by simp [hw.ne'])]
    rfl

/-- Witness for C10 with model size 1 and warmup 4. -/
theorem C10_rate_partial_at_zero_witness :
    (NoamOpt.init 1 1 4 [])._step = 0 ∧
    noamRateAt 1 1 4 ((NoamOpt.init 1 1 4 [])._step) = none ∧
    ∀ k : ℕ, 1 ≤ k → noamRateAt 1 1 4 k = some (noamRateR 1 1 4 (k : ℝ)) :=
  C10_rate_partial_at_zero 1 1 4 (by norm_num) (by norm_num)

/-! ### Helper lemmas: tokenizers (C4, C5) -/

/-- The seven punctuation characters isolated by tokenize_solidity_code. -/
def codePuncts : List Char := ['{', '}', '(', ')', '.', ';', ',']

/-- The per-character effect of the seven-fold replacement chain. -/
def replaceOne (c : Char) : List Char :=
  if c ∈ codePuncts then [' ', c, ' '] else [c]

/-- A token with no code punctuation character in it. -/
def punctFree (t : List Char) : Prop := ∀ c ∈ t, c ∉ codePuncts

/-- A token that is either a single punctuation character or free of
punctuation (the shape every field of the split of a replaced string
has). -/
def okTok (t : List Char) : Prop := (∃ c, c ∈ codePuncts ∧ t = [c]) ∨ punctFree t

/-- A token as produced by tokenize_solidity_code: nonempty, without
spaces, fixed by lower-casing, and punctuation-isolated. -/
def goodTok (t : List Char) : Prop :=
  t ≠ [] ∧ (∀ c ∈ t, c ≠ ' ' ∧ Char.toLower c = c) ∧ okTok t

lemma toNat_ofNat_valid (n : ℕ) (h : n.isValidChar) : (Char.ofNat n).toNat = n := by
  simp only [Char.ofNat, dif_pos h, Char.ofNatAux, Char.toNat]
  rfl

lemma toLower_toNat_upper (c : Char) (h1 : 65 ≤ c.toNat) (h2 : c.toNat ≤ 90) :
    (Char.toLower c).toNat = c.toNat + 32 := by
  unfold Char.toLower
  simp only [ge_iff_le, h1, h2, and_self, if_true]
  exact toNat_ofNat_valid _ (Or.inl (by omega))

lemma toLower_eq_self (c : Char) (h : ¬ (65 ≤ c.toNat ∧ c.toNat ≤ 90)) :
    Char.toLower c = c := by
  unfold Char.toLower
  simp only [ge_iff_le]
  exact if_neg h

lemma toLower_idem (c : Char) : Char.toLower (Char.toLower c) = Char.toLower c := by
  by_cases h : 65 ≤ c.toNat ∧ c.toNat ≤ 90
  · have ht := toLower_toNat_upper c h.1 h.2
    apply toLower_eq_self
    omega
  · rw [toLower_eq_self c h, toLower_eq_self c h]

lemma toLower_punct_fixed : ∀ c ∈ codePuncts, Char.toLower c = c := by decide

lemma punct_ne_space : ∀ c ∈ codePuncts, c ≠ ' ' := by decide

lemma toLower_notMem_puncts (c : Char) (h : c ∉ codePuncts) :
    Char.toLower c ∉ codePuncts := by
  by_cases hu : 65 ≤ c.toNat ∧ c.toNat ≤ 90
  · have ht := toLower_toNat_upper c hu.1 hu.2
    intro hmem
    have hmap : (Char.toLower c).toNat ∈ codePuncts.map Char.toNat :=
      List.mem_map_of_mem Char.toNat hmem
    rw [show codePuncts.map Char.toNat = [123, 125, 40, 41, 46, 59, 44] from rfl] at hmap
    simp only [List.mem_cons, List.not_mem_nil, or_false] at hmap
    omega
  · rw [toLower_eq_self c hu]
    exact h

lemma codeReplace_append (a b : List Char) :
    codeReplace (a ++ b) = codeReplace a ++ codeReplace b := by
  simp only [codeReplace, replaceChar, List.flatMap_append]

lemma codeReplace_single (c : Char) : codeReplace [c] = replaceOne c := by
  by_cases h1 : c = '{'
  · subst h1; decide
  by_cases h2 : c = '}'
  · subst h2; decide
  by_cases h3 : c = '('
  · subst h3; decide
  by_cases h4 : c = ')'
  · subst h4; decide
  by_cases h5 : c = '.'
  · subst h5; decide
  by_cases h6 : c = ';'
  · subst h6; decide
  by_cases h7 : c = ','
  · subst h7; decide
  simp [codeReplace, replaceChar, replaceOne, codePuncts, h1, h2, h3, h4, h5, h6, h7]

lemma codeReplace_eq_flatMap (s : List Char) : codeReplace s = s.flatMap replaceOne := by
  induction s with
  | nil => rfl
  | cons c cs ih =>
      have hsplit : c :: cs = [c] ++ cs := rfl
      rw [hsplit, codeReplace_append, codeReplace_single, ih, List.flatMap_append]
      simp

lemma replaceOne_space : replaceOne ' ' = [' '] := by decide

lemma splitSp_ne_nil (s : List Char) : splitSp s ≠ [] := by
  cases s with
  | nil => simp [splitSp]
  | cons c cs =>
      simp only [splitSp]
      cases h : splitSp cs with
      | nil => simp
      | cons t ts => by_cases hc : c = ' ' <;> simp [hc]

lemma splitSp_cons_eq (c : Char) (cs : List Char) (t : List Char) (ts : List (List Char))
    (h : splitSp cs = t :: ts) :
    splitSp (c :: cs) = if c = ' ' then [] :: t :: ts else (c :: t) :: ts := by
  simp only [splitSp, h]

lemma splitSp_append_space (a b : List Char) :
    splitSp (a ++ ' ' :: b) = splitSp a ++ splitSp b := by
  induction a with
  | nil =>
      cases h : splitSp b with
      | nil => exact absurd h (splitSp_ne_nil b)
      | cons t ts => simp [splitSp, h]
  | cons c a2 ih =>
      cases h : splitSp a2 with
      | nil => exact absurd h (splitSp_ne_nil a2)
      | cons t0 ts0 =>
          have hcs : splitSp (a2 ++ ' ' :: b) = t0 :: (ts0 ++ splitSp b) := by
            rw [ih, h]
            rfl
          rw [List.cons_append, splitSp_cons_eq c _ _ _ hcs, splitSp_cons_eq c a2 t0 ts0 h]
          by_cases hc : c = ' ' <;> simp [hc]

lemma splitSp_mem_no_space (s : List Char) : ∀ t ∈ splitSp s, ' ' ∉ t := by
  induction s with
  | nil =>
      intro t ht
      simp only [splitSp, List.mem_singleton] at ht
      simp [ht]
  | cons c cs ih =>
      intro t ht
      cases h : splitSp cs with
      | nil => exact absurd h (splitSp_ne_nil cs)
      | cons t0 ts0 =>
          simp only [splitSp, h] at ht
          by_cases hc : c = ' '
          · rw [if_pos hc] at ht
            rcases List.mem_cons.mp ht with h1 | h1
            · simp [h1]
            · exact ih t (h ▸ h1)
          · rw [if_neg hc] at ht
            rcases List.mem_cons.mp ht with h1 | h1
            · subst h1
              intro hsp
              rcases List.mem_cons.mp hsp with h2 | h2
              · exact hc h2.symm
              · exact ih t0 (h ▸ List.mem_cons_self t0 ts0) h2
            · exact ih t (h ▸ List.mem_cons.mpr (Or.inr h1))

lemma splitSp_mem_subset (s : List Char) : ∀ t ∈ splitSp s, ∀ c ∈ t, c ∈ s := by
  induction s with
  | nil =>
      intro t ht
      simp only [splitSp, List.mem_singleton] at ht
      simp [ht]
  | cons a cs ih =>
      intro t ht c hc
      cases h : splitSp cs with
      | nil => exact absurd h (splitSp_ne_nil cs)
      | cons t0 ts0 =>
          simp only [splitSp, h] at ht
          by_cases ha : a = ' '
          · rw [if_pos ha] at ht
            rcases List.mem_cons.mp ht with h1 | h1
            · subst h1; simp at hc
            · exact List.mem_cons.mpr (Or.inr (ih t (h ▸ h1) c hc))
          · rw [if_neg ha] at ht
            rcases List.mem_cons.mp ht with h1 | h1
            · subst h1
              rcases List.mem_cons.mp hc with h2 | h2
              · exact List.mem_cons.mpr (Or.inl h2)
              · exact List.mem_cons.mpr
                  (Or.inr (ih t0 (h ▸ List.mem_cons_self t0 ts0) c h2))
            · exact List.mem_cons.mpr (Or.inr (ih t (h ▸ List.mem_cons.mpr (Or.inr h1)) c hc))

lemma stripSp_subset (t : List Char) : stripSp t ⊆ t := by
  intro c hc
  rw [stripSp, List.mem_reverse] at hc
  have h1 := (List.dropWhile_sublist _).subset hc
  rw [List.mem_reverse] at h1
  exact (List.dropWhile_sublist _).subset h1

lemma dropWhile_space_of_no_space (t : List Char) (h : ∀ c ∈ t, c ≠ ' ') :
    t.dropWhile (fun c => c = ' ') = t := by
  rw [List.dropWhile_eq_self_iff]
  intro hl
  have hmem : t.get ⟨0, hl⟩ ∈ t := t.get_mem 0 hl
  simpa using h _ hmem

lemma stripSp_of_no_space (t : List Char) (h : ∀ c ∈ t, c ≠ ' ') : stripSp t = t := by
  rw [stripSp, dropWhile_space_of_no_space t h,
    dropWhile_space_of_no_space t.reverse (fun c hc => h c (List.mem_reverse.mp hc)),
    List.reverse_reverse]

lemma splitSp_of_no_space (t : List Char) (h : ∀ c ∈ t, c ≠ ' ') : splitSp t = [t] := by
  induction t with
  | nil => rfl
  | cons c cs ih =>
      have hcs : splitSp cs = [cs] := ih (fun d hd => h d (List.mem_cons.mpr (Or.inr hd)))
      simp only [splitSp, hcs]
      rw [if_neg (h c (List.mem_cons_self c cs))]

lemma flatMap_of_singleton (s : List Char) (f : Char → List Char)
    (h : ∀ c ∈ s, f c = [c]) : s.flatMap f = s := by
  induction s with
  | nil => rfl
  | cons c cs ih =>
      rw [List.flatMap_cons, h c (List.mem_cons_self c cs),
        ih (fun d hd => h d (List.mem_cons.mpr (Or.inr hd)))]
      rfl

lemma splitSp_replaceOne_structure (s : List Char) :
    (∀ t ∈ splitSp (s.flatMap replaceOne), okTok t) ∧
    punctFree ((splitSp (s.flatMap replaceOne)).headD []) := by
  induction s with
  | nil =>
      constructor
      · intro t ht
        simp only [List.flatMap_nil, splitSp, List.mem_singleton] at ht
        exact Or.inr (by simp [ht, punctFree])
      · simp [punctFree, splitSp]
  | cons c cs ih =>
      by_cases hc : c ∈ codePuncts
      · have hrw : (c :: cs).flatMap replaceOne = ' ' :: c :: ' ' :: cs.flatMap replaceOne := by
          simp [List.flatMap_cons, replaceOne, hc]
        have hcsplit : splitSp (c :: ' ' :: cs.flatMap replaceOne) =
            [c] :: splitSp (cs.flatMap replaceOne) := by
          have h2 := splitSp_append_space [c] (cs.flatMap replaceOne)
          have h3 : splitSp [c] = [[c]] :=
            splitSp_of_no_space [c] (by
              intro d hd
              rw [List.mem_singleton] at hd
              rw [hd]
              exact punct_ne_space c hc)
          simpa [h3] using h2
        have hall : splitSp ((c :: cs).flatMap replaceOne) =
            [] :: [c] :: splitSp (cs.flatMap replaceOne) := by
          rw [hrw]
          show splitSp ([] ++ ' ' :: (c :: ' ' :: cs.flatMap replaceOne)) = _
          rw [splitSp_append_space [] (c :: ' ' :: cs.flatMap replaceOne), hcsplit]
          rfl
        rw [hall]
        constructor
        · intro t ht
          rcases List.mem_cons.mp ht with h1 | h1
          · exact Or.inr (by simp [h1, punctFree])
          rcases List.mem_cons.mp h1 with h2 | h2
          · exact Or.inl ⟨c, hc, h2⟩
          · exact ih.1 t h2
        · simp [punctFree]
      · by_cases hsp : c = ' '
        · have hrw : (c :: cs).flatMap replaceOne = ' ' :: cs.flatMap replaceOne := by
            subst hsp
            simp [List.flatMap_cons, replaceOne_space, replaceOne, hc]
          have hall : splitSp ((c :: cs).flatMap replaceOne) =
              [] :: splitSp (cs.flatMap replaceOne) := by
            rw [hrw]
            show splitSp ([] ++ ' ' :: cs.flatMap replaceOne) = _
            rw [splitSp_append_space [] (cs.flatMap replaceOne)]
            rfl
          rw [hall]
          constructor
          · intro t ht
            rcases List.mem_cons.mp ht with h1 | h1
            · exact Or.inr (by simp [h1, punctFree])
            · exact ih.1 t h1
          · simp [punctFree]
        · have hrw : (c :: cs).flatMap replaceOne = c :: cs.flatMap replaceOne := by
            simp [List.flatMap_cons, replaceOne, hc]
          cases h : splitSp (cs.flatMap replaceOne) with
          | nil => exact absurd h (splitSp_ne_nil _)
          | cons t0 ts0 =>
              have hall : splitSp ((c :: cs).flatMap replaceOne) = (c :: t0) :: ts0 := by
                rw [hrw]
                simp only [splitSp, h]
                rw [if_neg hsp]
              rw [hall]
              have ht0free : punctFree t0 := by
                have := ih.2
                rw [h] at this
                simpa using this
              constructor
              · intro t ht
                rcases List.mem_cons.mp ht with h1 | h1
                · subst h1
                  refine Or.inr ?_
                  intro d hd
                  rcases List.mem_cons.mp hd with h2 | h2
                  · subst h2; exact hc
                  · exact ht0free d h2
                · exact ih.1 t (h ▸ List.mem_cons.mpr (Or.inr h1))
              · intro d hd
                simp only [List.headD_cons] at hd
                rcases List.mem_cons.mp hd with h2 | h2
                · subst h2; exact hc
                · exact ht0free d h2

lemma lowerL_replaceOne (c : Char) :
    lowerL (replaceOne c) = replaceOne (Char.toLower c) := by
  by_cases hc : c ∈ codePuncts
  · have hfix := toLower_punct_fixed c hc
    rw [replaceOne, if_pos hc, hfix, replaceOne, if_pos hc, lowerL]
    simp [hfix]
  · have h2 := toLower_notMem_puncts c hc
    rw [replaceOne, if_neg hc, replaceOne, if_neg h2, lowerL]
    simp

lemma lowerL_codeReplace_comm (s : List Char) :
    lowerL (codeReplace s) = codeReplace (lowerL s) := by
  rw [codeReplace_eq_flatMap, codeReplace_eq_flatMap]
  induction s with
  | nil => rfl
  | cons c cs ih =>
      show lowerL (replaceOne c ++ cs.flatMap replaceOne) =
        (Char.toLower c :: lowerL cs).flatMap replaceOne
      rw [lowerL, List.map_append, List.flatMap_cons, ← lowerL, ← lowerL, ih,
        lowerL_replaceOne]

lemma tokenize_solidity_code_good (s : List Char) :
    ∀ t ∈ tokenize_solidity_code s, goodTok t := by
  intro t ht
  rw [tokenize_solidity_code] at ht
  have htne : t ≠ [] := by
    have := List.of_mem_filter ht
    simpa using this
  have htmem : t ∈ (splitSp (lowerL (codeReplace s))).map stripSp :=
    List.mem_of_mem_filter ht
  obtain ⟨u, hu, hut⟩ := List.mem_map.mp htmem
  have husub : ∀ c ∈ t, c ∈ u := by
    intro c hc
    exact stripSp_subset u (hut ▸ hc)
  have huv : ∀ c ∈ u, c ∈ lowerL (codeReplace s) := splitSp_mem_subset _ u hu
  have hnospace_u : ' ' ∉ u := splitSp_mem_no_space _ u hu
  refine ⟨htne, ?_, ?_⟩
  · intro c hc
    constructor
    · intro hsp
      exact hnospace_u (hsp ▸ husub c hc)
    · have hcv : c ∈ lowerL (codeReplace s) := huv c (husub c hc)
      rw [lowerL] at hcv
      obtain ⟨d, _, hd⟩ := List.mem_map.mp hcv
      rw [← hd]
      exact toLower_idem d
  · have hu_ok : okTok u := by
      have hv : lowerL (codeReplace s) = (lowerL s).flatMap replaceOne := by
        rw [lowerL_codeReplace_comm, codeReplace_eq_flatMap]
      rw [hv] at hu
      exact (splitSp_replaceOne_structure (lowerL s)).1 u hu
    rcases hu_ok with ⟨c, hcmem, hceq⟩ | hfree
    · left
      refine ⟨c, hcmem, ?_⟩
      rw [← hut, hceq, stripSp_of_no_space]
      intro d hd
      rw [List.mem_singleton] at hd
      rw [hd]
      exact punct_ne_space c hcmem
    · right
      intro d hd
      exact hfree d (husub d hd)

lemma tokenize_single_good (t : List Char) (h : goodTok t) :
    tokenize_solidity_code t = [t] := by
  obtain ⟨hne, hchars, hok⟩ := h
  rcases hok with ⟨c, hcmem, hceq⟩ | hfree
  · subst hceq
    simp only [codePuncts, List.mem_cons, List.not_mem_nil, or_false] at hcmem
    rcases hcmem with rfl | rfl | rfl | rfl | rfl | rfl | rfl <;> decide
  · have hnosp : ∀ d ∈ t, d ≠ ' ' := fun d hd => (hchars d hd).1
    have hlow : lowerL t = t := by
      rw [lowerL]
      have hcongr : t.map Char.toLower = t.map id :=
        List.map_congr_left (fun d hd => (hchars d hd).2)
      rw [hcongr, List.map_id]
    rw [tokenize_solidity_code, codeReplace_eq_flatMap,
      flatMap_of_singleton t replaceOne (fun d hd => by rw [replaceOne, if_neg (hfree d hd)]),
      hlow, splitSp_of_no_space t hnosp, List.map_cons, List.map_nil,
      stripSp_of_no_space t hnosp]
    simp [hne]

lemma tokenize_append_space (a b : List Char) :
    tokenize_solidity_code (a ++ ' ' :: b) =
      tokenize_solidity_code a ++ tokenize_solidity_code b := by
  simp only [tokenize_solidity_code, codeReplace_eq_flatMap, List.flatMap_append,
    List.flatMap_cons, replaceOne_space, lowerL, List.map_append, List.singleton_append,
    List.map_cons]
  rw [show Char.toLower ' ' = ' ' from rfl, splitSp_append_space, List.map_append,
    List.filter_append]

lemma tokenize_joinSp (ts : List (List Char)) (h : ∀ t ∈ ts, goodTok t) :
    tokenize_solidity_code (joinSp ts) = ts := by
  induction ts with
  | nil => decide
  | cons t rest ih =>
      cases rest with
      | nil => exact tokenize_single_good t (h t (List.mem_cons_self t []))
      | cons u rest2 =>
          rw [joinSp, tokenize_append_space,
            tokenize_single_good t (h t (List.mem_cons_self t (u :: rest2))),
            ih (fun x hx => h x (List.mem_cons.mpr (Or.inr hx)))]
          rfl

end SolidityTranslator

namespace SolidityTranslator

/-! ### Claim theorems: C4, C5 -/

/-- C4 counterexample: tokenize_description is not idempotent.  On the
one-character input of an opening square bracket it returns the bracket
token and an empty token; re-tokenizing their space-joined form yields
an extra empty token. -/
theorem C4_tokenize_description_not_idempotent :
    tokenize_description (joinSp (tokenize_description ("[".toList))) ≠
      tokenize_description ("[".toList) := by
  decide

/-- C4 amended: re-tokenizing the space-rejoined token sequence is the
identity for tokenize_solidity_code (which discards empty tokens);
tokenize_description, which keeps empty tokens, does not have this
property. -/
theorem C4_tokenize_solidity_code_idempotent (s : List Char) :
    tokenize_solidity_code (joinSp (tokenize_solidity_code s)) =
      tokenize_solidity_code s :=
  tokenize_joinSp (tokenize_solidity_code s) (tokenize_solidity_code_good s)

/-- C5 counterexample: tokenize_description can return empty tokens: on
an input with two consecutive spaces the empty string between them is
kept in the output. -/
theorem C5_tokenize_description_emits_empty_token :
    [] ∈ tokenize_description ("a  b".toList) := by
  decide

/-- C5 amended: the token sequence returned by tokenize_solidity_code
never contains an empty token; tokenize_description does not discard
empty tokens. -/
theorem C5_tokenize_solidity_code_no_empty_tokens (s : List Char) :
    [] ∉ tokenize_solidity_code s := by
  intro h
  have := List.of_mem_filter h
  simp at this

end SolidityTranslator
